import Mathlib

set_option maxHeartbeats 1000000

/-
Shallow embedding of src/ouster_pcap/src/ip_reassembler.cpp: the per-datagram
fragment store Internals::IPv4Stream2 and the reassembly table
IPv4Reassembler2.  Bytes are modelled as Nat, byte buffers as List Nat,
machine size accumulators (size_t) as Nat, and microsecond timestamps
(std::chrono::microseconds, a signed 64-bit tick count) as Int.  The external
payload builder Internals::pdu_from_flag is an opaque parameter; a built PDU
object is carried as its byte buffer, none models a null PDU pointer.
-/

/-- One stored fragment (Internals::IPv4Fragment2): a copy of the IP
packet's inner payload bytes and its byte offset. -/
structure IPv4Fragment2 where
  payload : List Nat
  offset : Nat
deriving DecidableEq

/-- The IP-layer view of a packet that the reassembler reads and writes:
the 13-bit fragment-offset field, the 3-bit flags field, the identification
field, source and destination addresses, the protocol number, and the
optional inner payload (none models a null inner_pdu()). -/
structure IP where
  fragment_offset : Nat
  flags : Nat
  id : Nat
  src_addr : Nat
  dst_addr : Nat
  protocol : Nat
  inner : Option (List Nat)
deriving DecidableEq

/-- Modelled from the spec: the IP::MORE_FRAGMENTS flag bit of the packet
accessor collaborator (the "more fragments" indicator), the lowest bit of
the 3-bit flags field. -/
def MORE_FRAGMENTS : Nat := 1

/-- static const std::chrono::microseconds fragment_timeout(2000000). -/
def fragment_timeout : Int := 2000000

/-- IPv4Stream2::extract_offset: the 13-bit fragment_offset field times 8,
truncated to uint16 (lossless for every in-range field value, since
8191 * 8 = 65528 < 65536; the mod keeps the machine cast explicit). -/
def extract_offset (ip : IP) : Nat :=
  ip.fragment_offset * 8 % 65536

/-- Modelled from the spec: the packet accessor's IP::is_fragmented test
(outside src/): a packet is fragmented iff the more-fragments flag is set
or the fragment offset is non-zero. -/
def IP.is_fragmented (ip : IP) : Bool :=
  (ip.flags &&& MORE_FRAGMENTS != 0) || (ip.fragment_offset != 0)

/-- The inner payload bytes of a packet.  Callers of add_fragment guarantee
inner_pdu() is non-null; getD covers the unreachable null case. -/
def IP.payloadBytes (ip : IP) : List Nat := ip.inner.getD []

/-- The header snapshot stored in first_fragment_: add_fragment releases the
inner PDU, copies *ip, and restores it, so the stored copy is the packet
without its inner payload. -/
def IP.withoutInner (ip : IP) : IP := { ip with inner := none }

/-- A default-constructed IP() header: zeroed fields, no inner PDU. -/
def IP.defaultHeader : IP := ⟨0, 0, 0, 0, 0, 0, none⟩

/-- The terminal-fragment test in add_fragment:
(ip->flags() & IP::MORE_FRAGMENTS) == 0. -/
def isTerminal (ip : IP) : Bool := ip.flags &&& MORE_FRAGMENTS == 0

/-- The fragment add_fragment constructs from a packet:
IPv4Fragment2(ip->inner_pdu(), extract_offset(ip)). -/
def toFrag (ip : IP) : IPv4Fragment2 := ⟨ip.payloadBytes, extract_offset ip⟩

/-- Internals::IPv4Stream2 state. -/
structure IPv4Stream2 where
  fragments_ : List IPv4Fragment2
  received_size_ : Nat
  total_size_ : Nat
  received_end_ : Bool
  first_fragment_ : IP
  last_timestamp_ : Int
deriving DecidableEq

/-- IPv4Stream2::IPv4Stream2(): zero sizes, no terminal fragment yet, empty
fragment list, default header.  last_timestamp_ is never read before being
set (every read is guarded by a nonempty fragment list or preceded by an
add_fragment call); 0 stands for its indeterminate initial value. -/
def IPv4Stream2.init : IPv4Stream2 := ⟨[], 0, 0, false, IP.defaultHeader, 0⟩

/-- The timeout reset inside add_fragment: clear the fragments, both size
counters, the terminal flag and the header snapshot (last_timestamp_ is
reassigned immediately afterwards by add_fragment itself). -/
def resetStream (s : IPv4Stream2) : IPv4Stream2 :=
  { s with received_size_ := 0, total_size_ := 0, received_end_ := false,
           fragments_ := [], first_fragment_ := IP.defaultHeader }

/-- The insertion scan of add_fragment: advance while the new offset is
greater than the current fragment's; on an equal offset erase the old
fragment and insert the new one in its place (second component false: the
replace branch does not touch received_size_); otherwise insert before the
stop position (second component true: received_size_ is incremented by the
caller). -/
def insertSorted (f : IPv4Fragment2) : List IPv4Fragment2 → List IPv4Fragment2 × Bool
  | [] => ([f], true)
  | g :: rest =>
    if g.offset < f.offset then
      let r := insertSorted f rest
      (g :: r.1, r.2)
    else if g.offset == f.offset then
      (f :: rest, false)
    else
      (f :: g :: rest, true)

/-- IPv4Stream2::add_fragment. -/
def IPv4Stream2.add_fragment (s : IPv4Stream2) (timestamp : Int) (ip : IP) :
    IPv4Stream2 :=
  let s1 := if s.fragments_ ≠ [] ∧ timestamp - s.last_timestamp_ > fragment_timeout
            then resetStream s else s
  let ins := insertSorted (toFrag ip) s1.fragments_
  let s2 := { s1 with
              last_timestamp_ := timestamp,
              fragments_ := ins.1,
              received_size_ := if ins.2 then s1.received_size_ + ip.payloadBytes.length
                                else s1.received_size_ }
  let s3 := if isTerminal ip
            then { s2 with total_size_ := extract_offset ip + ip.payloadBytes.length,
                           received_end_ := true }
            else s2
  if extract_offset ip == 0 then { s3 with first_fragment_ := ip.withoutInner } else s3

/-- IPv4Stream2::is_complete.  The C++ final check dereferences
fragments_.begin(); is_complete is only invoked right after an insertion, so
the empty-list case (modelled as false) is unreachable there. -/
def IPv4Stream2.is_complete (s : IPv4Stream2) : Bool :=
  if !s.received_end_ || s.received_size_ != s.total_size_ then false
  else
    match s.fragments_ with
    | [] => false
    | f :: _ => f.offset == 0

/-- The gap-checking concatenation loop of IPv4Stream2::allocate_pdu:
expected offset, remaining fragments, accumulated buffer. -/
def stitchLoop : Nat → List IPv4Fragment2 → List Nat → Option (List Nat)
  | _, [], buffer => some buffer
  | expected, f :: rest, buffer =>
    if expected != f.offset then none
    else stitchLoop (f.offset + f.payload.length) rest (buffer ++ f.payload)

/-- IPv4Stream2::allocate_pdu, parameterized by the external payload builder
Internals::pdu_from_flag (protocol number and byte buffer to an optional
decoded payload; none models a null PDU pointer). -/
def IPv4Stream2.allocate_pdu (pdu_from_flag : Nat → List Nat → Option (List Nat))
    (s : IPv4Stream2) : Option (List Nat) :=
  match stitchLoop 0 s.fragments_ [] with
  | none => none
  | some buffer => pdu_from_flag s.first_fragment_.protocol buffer

/-- IPv4Reassembler2::key_type: (IP identification, normalized address pair). -/
abbrev KeyType := Nat × (Nat × Nat)

/-- IPv4Reassembler2 state: the streams_ table, modelled as an association
list (std::map with unique keys).  The technique_ member is set by the
constructor and never read in this translation unit, so it is omitted. -/
structure IPv4Reassembler2 where
  streams_ : List (KeyType × IPv4Stream2)
deriving DecidableEq

/-- std::map lookup on the association-list model of streams_. -/
def lookupKey (k : KeyType) : List (KeyType × IPv4Stream2) → Option IPv4Stream2
  | [] => none
  | e :: rest => if e.1 = k then some e.2 else lookupKey k rest

/-- streams_[key] = stream: replace the entry for the key if present,
otherwise add it. -/
def setEntry (k : KeyType) (v : IPv4Stream2) :
    List (KeyType × IPv4Stream2) → List (KeyType × IPv4Stream2)
  | [] => [(k, v)]
  | e :: rest => if e.1 = k then (k, v) :: rest else e :: setEntry k v rest

/-- streams_.erase(key). -/
def eraseKey (k : KeyType) : List (KeyType × IPv4Stream2) →
    List (KeyType × IPv4Stream2)
  | [] => []
  | e :: rest => if e.1 = k then eraseKey k rest else e :: eraseKey k rest

/-- The cap-triggered sweep loop in process: erase every stream whose
last_timestamp_ age exceeds the timeout, keep every other one. -/
def sweepStreams (timestamp : Int) : List (KeyType × IPv4Stream2) →
    List (KeyType × IPv4Stream2)
  | [] => []
  | e :: rest =>
    if timestamp - e.2.last_timestamp_ > fragment_timeout then
      sweepStreams timestamp rest
    else
      e :: sweepStreams timestamp rest

/-- The streams table process works on after the conditional sweep: swept
only when more than 100 entries are held (streams_.size() > 100). -/
def tableAfterSweep (timestamp : Int) (streams : List (KeyType × IPv4Stream2)) :
    List (KeyType × IPv4Stream2) :=
  if streams.length > 100 then sweepStreams timestamp streams else streams

/-- IPv4Reassembler2::make_address_pair: order-normalize the two addresses
(addresses compared as their numeric values). -/
def make_address_pair (addr1 addr2 : Nat) : Nat × Nat :=
  if addr1 < addr2 then (addr1, addr2) else (addr2, addr1)

/-- IPv4Reassembler2::make_key. -/
def make_key (ip : IP) : KeyType :=
  (ip.id, make_address_pair ip.src_addr ip.dst_addr)

/-- IPv4Reassembler2::PacketStatus. -/
inductive PacketStatus where
  | NOT_FRAGMENTED
  | FRAGMENTED
  | REASSEMBLED
deriving DecidableEq

/-- The caller's packet: an opaque outer part (the layers other than IP,
which process never touches) and the optional IP layer (find_pdu<IP>). -/
structure PDUPacket where
  outer : List Nat
  ip : Option IP
deriving DecidableEq

/-- IPv4Reassembler2::process, parameterized by the external payload builder;
returns the updated table, the possibly mutated packet, and the status. -/
def IPv4Reassembler2.process (pdu_from_flag : Nat → List Nat → Option (List Nat))
    (r : IPv4Reassembler2) (timestamp : Int) (pkt : PDUPacket) :
    IPv4Reassembler2 × PDUPacket × PacketStatus :=
  match pkt.ip with
  | none => (r, pkt, PacketStatus.NOT_FRAGMENTED)
  | some ip =>
    if ip.inner.isNone then (r, pkt, PacketStatus.NOT_FRAGMENTED)
    else if ip.is_fragmented then
      let key := make_key ip
      let table := tableAfterSweep timestamp r.streams_
      let stream := ((lookupKey key table).getD IPv4Stream2.init).add_fragment
                      timestamp ip
      let table2 := setEntry key stream table
      if stream.is_complete then
        let pdu := stream.allocate_pdu pdu_from_flag
        let table3 := eraseKey key table2
        match pdu with
        | none =>
          (⟨table3⟩, { pkt with ip := some stream.first_fragment_ },
           PacketStatus.FRAGMENTED)
        | some b =>
          (⟨table3⟩,
           { pkt with ip := some { stream.first_fragment_ with
                                   inner := some b, fragment_offset := 0,
                                   flags := 0 } },
           PacketStatus.REASSEMBLED)
      else (⟨table2⟩, pkt, PacketStatus.FRAGMENTED)
    else (r, pkt, PacketStatus.NOT_FRAGMENTED)

/-- Absorb a timestamped fragment sequence left to right. -/
def IPv4Stream2.absorbAll (s : IPv4Stream2) (l : List (Int × IP)) : IPv4Stream2 :=
  l.foldl (fun acc p => acc.add_fragment p.1 p.2) s

/-- Strict ascending-offset order on fragments: sortedness under fragLt is
"sorted ascending by offset with all offsets unique". -/
def fragLt (f g : IPv4Fragment2) : Prop := f.offset < g.offset

/-- Contiguous coverage: each packet's extracted offset equals the running
total of the preceding payload lengths, starting from e. -/
def contiguousFrom (e : Nat) : List IP → Bool
  | [] => true
  | ip :: rest =>
    extract_offset ip == e && contiguousFrom (e + ip.payloadBytes.length) rest

/-- The terminal flag is clear on the last packet and set on all others. -/
def terminalOnlyLast : List IP → Bool
  | [] => false
  | [ip] => isTerminal ip
  | ip :: rest => !isTerminal ip && terminalOnlyLast rest

/-- One valid datagram, listed in ascending-offset canonical order: nonempty,
every fragment carries a payload object, pairwise distinct offsets,
contiguous coverage from offset 0, terminal flag on exactly the last
fragment. -/
def validDatagram (ds : List IP) : Prop :=
  ds ≠ [] ∧ (∀ ip ∈ ds, ip.inner.isSome = true) ∧
  (ds.map extract_offset).Nodup ∧
  contiguousFrom 0 ds = true ∧ terminalOnlyLast ds = true

instance (ds : List IP) : Decidable (validDatagram ds) := by
  unfold validDatagram
  infer_instance

instance : DecidableRel fragLt := fun f g => Nat.decLt f.offset g.offset

lemma add_fragment_noReset (s : IPv4Stream2) (t : Int) (ip : IP)
    (h : ¬(s.fragments_ ≠ [] ∧ t - s.last_timestamp_ > fragment_timeout)) :
    s.add_fragment t ip =
      { fragments_ := (insertSorted (toFrag ip) s.fragments_).1,
        received_size_ := if (insertSorted (toFrag ip) s.fragments_).2 then
          s.received_size_ + ip.payloadBytes.length else s.received_size_,
        total_size_ := if isTerminal ip then
          extract_offset ip + ip.payloadBytes.length else s.total_size_,
        received_end_ := if isTerminal ip then true else s.received_end_,
        first_fragment_ := if extract_offset ip == 0 then ip.withoutInner
          else s.first_fragment_,
        last_timestamp_ := t } := by
  simp only [IPv4Stream2.add_fragment, if_neg h]
  split_ifs <;> rfl

lemma add_fragment_reset (s : IPv4Stream2) (t : Int) (ip : IP)
    (h1 : s.fragments_ ≠ []) (h2 : t - s.last_timestamp_ > fragment_timeout) :
    s.add_fragment t ip = IPv4Stream2.init.add_fragment t ip := by
  have hcond : s.fragments_ ≠ [] ∧ t - s.last_timestamp_ > fragment_timeout :=
    And.intro h1 h2
  have hinit : ¬(IPv4Stream2.init.fragments_ ≠ [] ∧
      t - IPv4Stream2.init.last_timestamp_ > fragment_timeout) := by
    intro hx
    exact hx.1 rfl
  simp [IPv4Stream2.add_fragment, if_pos hcond, if_neg hinit, resetStream,
        IPv4Stream2.init, insertSorted]

lemma add_fragment_fragments (s : IPv4Stream2) (t : Int) (ip : IP) :
    (s.add_fragment t ip).fragments_ =
      (insertSorted (toFrag ip)
        (if s.fragments_ ≠ [] ∧ t - s.last_timestamp_ > fragment_timeout
         then [] else s.fragments_)).1 := by
  simp only [IPv4Stream2.add_fragment]
  split_ifs <;> rfl

lemma insertSorted_mem (f : IPv4Fragment2) (l : List IPv4Fragment2)
    (x : IPv4Fragment2) (hx : x ∈ (insertSorted f l).1) : x = f ∨ x ∈ l := by
  induction l with
  | nil =>
    simp [insertSorted] at hx
    exact Or.inl hx
  | cons g rest ih =>
    simp only [insertSorted] at hx
    split_ifs at hx with h1 h2
    · rcases List.mem_cons.mp hx with hg | hr
      · exact Or.inr (by simp [hg])
      · rcases ih hr with h | h
        · exact Or.inl h
        · exact Or.inr (List.mem_cons_of_mem g h)
    · rcases List.mem_cons.mp hx with h | h
      · exact Or.inl h
      · exact Or.inr (List.mem_cons_of_mem g h)
    · rcases List.mem_cons.mp hx with h | h
      · exact Or.inl h
      · exact Or.inr h

lemma insertSorted_pairwise (f : IPv4Fragment2) (l : List IPv4Fragment2)
    (h : List.Pairwise fragLt l) : List.Pairwise fragLt (insertSorted f l).1 := by
  induction l with
  | nil => simp [insertSorted, List.pairwise_singleton]
  | cons g rest ih =>
    rcases List.pairwise_cons.mp h with ⟨hg, hrest⟩
    simp only [insertSorted]
    split_ifs with h1 h2
    · refine List.pairwise_cons.mpr ⟨?_, ih hrest⟩
      intro x hx
      rcases insertSorted_mem f rest x hx with rfl | hxr
      · exact h1
      · exact hg x hxr
    · refine List.pairwise_cons.mpr ⟨?_, hrest⟩
      intro x hx
      have hgf : g.offset = f.offset := by simpa using h2
      have hlt := hg x hx
      unfold fragLt at hlt ⊢
      omega
    · have hfg : f.offset < g.offset := by
        have hne : g.offset ≠ f.offset := by
          intro he
          exact h2 (by simp [he])
        omega
      refine List.pairwise_cons.mpr ⟨?_, h⟩
      intro x hx
      rcases List.mem_cons.mp hx with rfl | hxr
      · exact hfg
      · have hlt := hg x hxr
        unfold fragLt at hlt ⊢
        omega

lemma insertSorted_not_mem (f : IPv4Fragment2) (l : List IPv4Fragment2)
    (h : f.offset ∉ l.map IPv4Fragment2.offset) :
    (insertSorted f l).2 = true ∧ List.Perm (insertSorted f l).1 (f :: l) := by
  induction l with
  | nil => exact ⟨rfl, List.Perm.refl _⟩
  | cons g rest ih =>
    have hgf : f.offset ≠ g.offset := by
      intro he
      exact h (by simp [he])
    have hrest : f.offset ∉ rest.map IPv4Fragment2.offset := by
      intro hm
      exact h (by simp [hm])
    simp only [insertSorted]
    split_ifs with h1 h2
    · obtain ⟨hb, hp⟩ := ih hrest
      exact ⟨hb, (hp.cons g).trans (List.Perm.swap f g rest)⟩
    · exact absurd (show f.offset = g.offset by have := h2; simp at this; omega) hgf
    · exact ⟨rfl, List.Perm.refl _⟩

/-- C9: every add_fragment call preserves the store invariant that
fragments_ is sorted in strictly ascending offset order (sorted with all
offsets unique): the scan inserts at the first position whose offset is not
smaller, and an equal-offset fragment is replaced in place. -/
theorem add_fragment_preserves_sorted_unique (s : IPv4Stream2) (t : Int)
    (ip : IP) (h : List.Pairwise fragLt s.fragments_) :
    List.Pairwise fragLt (s.add_fragment t ip).fragments_ := by
  rw [add_fragment_fragments]
  split_ifs with hr
  · exact insertSorted_pairwise _ _ List.Pairwise.nil
  · exact insertSorted_pairwise _ _ h

def pktW1 : IP := ⟨1, 1, 7, 10, 20, 17, some [1, 2]⟩

def pktW0 : IP := ⟨0, 1, 7, 10, 20, 17, some [3]⟩

def streamW : IPv4Stream2 := IPv4Stream2.init.add_fragment 0 pktW1

/-- Witness for C9 at a concrete sorted store and fragment. -/
theorem add_fragment_preserves_sorted_unique_witness :
    List.Pairwise fragLt streamW.fragments_ ∧
    List.Pairwise fragLt ((streamW.add_fragment 1 pktW0).fragments_) :=
  ⟨by decide, add_fragment_preserves_sorted_unique streamW 1 pktW0 (by decide)⟩

def pktA : IP := ⟨0, 1, 7, 10, 20, 17, some [1, 2, 3, 4, 5, 6, 7, 8]⟩

def pktA4 : IP := ⟨0, 1, 7, 10, 20, 17, some [9, 9, 9, 9]⟩

def pktB : IP := ⟨1, 0, 7, 10, 20, 17, some [5, 5]⟩

def streamA : IPv4Stream2 := IPv4Stream2.init.add_fragment 0 pktA

def streamReplaced : IPv4Stream2 := streamA.add_fragment 0 pktA4

/-- C1 (code bug): absorbing a second offset-0 fragment whose payload is 4
bytes after a first one of 8 bytes replaces the fragment but leaves
received_size_ at 8, while the sum of the payload lengths of the fragments
actually held is 4 — the replace branch of add_fragment neither subtracts
the old payload length nor adds the new one, contradicting the documented
running-sum invariant. -/
theorem received_size_not_adjusted_on_replace :
    streamReplaced.fragments_ = [⟨[9, 9, 9, 9], 0⟩] ∧
    streamReplaced.received_size_ = 8 ∧
    (streamReplaced.fragments_.map (fun f => f.payload.length)).sum = 4 := by
  decide

/-- C5: when the store holds fragments and the new timestamp exceeds
last_timestamp_ by more than the 2,000,000-microsecond timeout,
add_fragment first wipes the store (fragments, received_size_, total_size_,
received_end_, first_fragment_) — so the call behaves exactly like a call
on a freshly constructed stream, and afterwards the store holds only the
new fragment's data. -/
theorem add_fragment_timeout_discards (s : IPv4Stream2) (t : Int) (ip : IP)
    (h1 : s.fragments_ ≠ []) (h2 : t - s.last_timestamp_ > fragment_timeout) :
    s.add_fragment t ip = IPv4Stream2.init.add_fragment t ip ∧
    (s.add_fragment t ip).fragments_ = [toFrag ip] := by
  refine ⟨add_fragment_reset s t ip h1 h2, ?_⟩
  rw [add_fragment_reset s t ip h1 h2, add_fragment_fragments]
  simp [IPv4Stream2.init, insertSorted]

/-- Witness for C5: fragment A absorbed at t = 0, fragment B at
t = 3,000,000 µs; the store afterwards holds only B's data. -/
theorem add_fragment_timeout_discards_witness :
    (streamA.fragments_ ≠ [] ∧
     (3000000 : Int) - streamA.last_timestamp_ > fragment_timeout) ∧
    (streamA.add_fragment 3000000 pktB = IPv4Stream2.init.add_fragment 3000000 pktB ∧
     (streamA.add_fragment 3000000 pktB).fragments_ = [toFrag pktB]) :=
  ⟨⟨by decide, by decide⟩,
   add_fragment_timeout_discards streamA 3000000 pktB (by decide) (by decide)⟩

/-- C8: make_key yields the same table key when the source and destination
addresses are exchanged, because make_address_pair order-normalizes the
address pair; so traffic in either direction with the same identification
and address pair maps to the same entry. -/
theorem make_key_symmetric (ip : IP) :
    make_key { ip with src_addr := ip.dst_addr, dst_addr := ip.src_addr } =
      make_key ip := by
  obtain ⟨fo, fl, i, sa, da, pr, inn⟩ := ip
  simp only [make_key, make_address_pair]
  split_ifs <;> simp only [Prod.mk.injEq, true_and] <;> omega

/-- C2: is_complete returns true exactly when the terminal fragment has been
seen, received_size_ equals total_size_, and the lowest-offset fragment held
(the head of the sorted fragment list) has offset 0.  The sortedness
invariant (maintained per C9) identifies the list head with the
lowest-offset fragment. -/
theorem is_complete_iff (s : IPv4Stream2)
    (hs : List.Pairwise fragLt s.fragments_) :
    s.is_complete = true ↔
      (s.received_end_ = true ∧ s.received_size_ = s.total_size_ ∧
       ∃ f ∈ s.fragments_, f.offset = 0 ∧
         ∀ g ∈ s.fragments_, f.offset ≤ g.offset) := by
  obtain ⟨frs, rs, ts, en, ff, lts⟩ := s
  simp only [IPv4Stream2.is_complete] at hs ⊢
  cases en with
  | false => simp
  | true =>
    by_cases hsz : rs = ts
    · subst hsz
      simp only [Bool.not_true, bne_self_eq_false, Bool.or_self, Bool.false_or,
                 if_false, Bool.false_eq_true]
      cases frs with
      | nil => simp
      | cons f rest =>
        have hmin : ∀ g ∈ rest, f.offset < g.offset := fun g hg =>
          (List.pairwise_cons.mp hs).1 g hg
        constructor
        · intro h
          have hf0 : f.offset = 0 := by simpa using h
          refine ⟨trivial, trivial, f, by simp, hf0, ?_⟩
          intro g hg
          rcases List.mem_cons.mp hg with rfl | hgr
          · exact Nat.le_refl _
          · exact Nat.le_of_lt (hmin g hgr)
        · rintro ⟨-, -, g, hgmem, hg0, hgmin⟩
          rcases List.mem_cons.mp hgmem with rfl | hgr
          · simpa using hg0
          · have hlt := hmin g hgr
            rw [hg0] at hlt
            exact absurd hlt (Nat.not_lt_zero _)
    · simp [hsz]

def pktD0 : IP := ⟨0, 1, 7, 10, 20, 17, some [65, 65, 65, 65, 65, 65, 65, 65]⟩

def pktD1 : IP := ⟨1, 1, 7, 10, 20, 17, some [66, 66, 66, 66, 66, 66, 66, 66]⟩

def pktD2 : IP := ⟨2, 0, 7, 10, 20, 17, some [67, 67]⟩

def streamD : IPv4Stream2 :=
  IPv4Stream2.init.absorbAll [(0, pktD0), (5, pktD1), (9, pktD2)]

/-- Witness for C2 at a concrete completed three-fragment store. -/
theorem is_complete_iff_witness :
    List.Pairwise fragLt streamD.fragments_ ∧
    (streamD.is_complete = true ↔
      (streamD.received_end_ = true ∧
       streamD.received_size_ = streamD.total_size_ ∧
       ∃ f ∈ streamD.fragments_, f.offset = 0 ∧
         ∀ g ∈ streamD.fragments_, f.offset ≤ g.offset)) :=
  ⟨by decide, is_complete_iff streamD (by decide)⟩

lemma stitchLoop_none (l : List IPv4Fragment2) (e : Nat) (buf : List Nat)
    (h : ∃ i, ∃ hi : i < l.length,
      (l.get ⟨i, hi⟩).offset ≠
        e + ((l.take i).map (fun f => f.payload.length)).sum) :
    stitchLoop e l buf = none := by
  induction l generalizing e buf with
  | nil =>
    obtain ⟨i, hi, _⟩ := h
    exact absurd hi (Nat.not_lt_zero i)
  | cons f rest ih =>
    by_cases hf : e = f.offset
    · obtain ⟨i, hi, hne⟩ := h
      cases i with
      | zero =>
        simp at hne
        exact absurd hf.symm hne
      | succ j =>
        simp only [stitchLoop]
        rw [if_neg (by simp [hf])]
        apply ih
        refine ⟨j, by simpa using hi, ?_⟩
        subst hf
        simp only [List.get_cons_succ, List.take_succ_cons, List.map_cons,
                   List.sum_cons] at hne
        rw [Nat.add_assoc]
        exact hne
    · simp only [stitchLoop]
      rw [if_pos (by simpa using hf)]

lemma stitchLoop_some (l : List IPv4Fragment2) (e : Nat) (buf : List Nat)
    (h : ∀ i (hi : i < l.length),
      (l.get ⟨i, hi⟩).offset =
        e + ((l.take i).map (fun f => f.payload.length)).sum) :
    stitchLoop e l buf = some (buf ++ (l.map (fun f => f.payload)).flatten) := by
  induction l generalizing e buf with
  | nil => simp [stitchLoop]
  | cons f rest ih =>
    have h0 : f.offset = e := by simpa using h 0 (by simp)
    simp only [stitchLoop]
    rw [if_neg (by simp [h0])]
    rw [ih (f.offset + f.payload.length) (buf ++ f.payload) ?_]
    · simp
    · intro i hi
      have hs := h (i + 1) (by simpa using hi)
      simp only [List.get_cons_succ, List.take_succ_cons, List.map_cons,
                 List.sum_cons] at hs
      rw [hs, h0, Nat.add_assoc]

/-- C3: allocate_pdu walks the fragments in store order (ascending offset)
with an expected offset starting at 0; if any fragment's offset differs
from the sum of the payload lengths of all preceding fragments it returns
none, and otherwise it hands the concatenation of all payloads in store
order to the external builder and returns its result. -/
theorem allocate_pdu_gap_check (pdu_from_flag : Nat → List Nat → Option (List Nat))
    (s : IPv4Stream2) :
    ((∃ i, ∃ hi : i < s.fragments_.length,
        (s.fragments_.get ⟨i, hi⟩).offset ≠
          ((s.fragments_.take i).map (fun f => f.payload.length)).sum) →
      s.allocate_pdu pdu_from_flag = none) ∧
    ((∀ i (hi : i < s.fragments_.length),
        (s.fragments_.get ⟨i, hi⟩).offset =
          ((s.fragments_.take i).map (fun f => f.payload.length)).sum) →
      s.allocate_pdu pdu_from_flag =
        pdu_from_flag s.first_fragment_.protocol
          ((s.fragments_.map (fun f => f.payload)).flatten)) := by
  constructor
  · intro h
    unfold IPv4Stream2.allocate_pdu
    rw [stitchLoop_none s.fragments_ 0 [] (by simpa using h)]
  · intro h
    unfold IPv4Stream2.allocate_pdu
    rw [stitchLoop_some s.fragments_ 0 [] (by simpa using h)]
    simp

def streamGap : IPv4Stream2 :=
  ⟨[⟨[1, 1, 1, 1, 1, 1, 1, 1], 0⟩, ⟨[2, 2], 16⟩], 10, 18, true,
   IP.defaultHeader, 0⟩

def streamOk : IPv4Stream2 :=
  ⟨[⟨[1, 1, 1], 0⟩, ⟨[2, 2], 3⟩], 5, 5, true, IP.defaultHeader, 0⟩

def bldW : Nat → List Nat → Option (List Nat) := fun p b => some (p :: b)

/-- Witness for C3: a gapped store stitches to none, a contiguous store
stitches to the builder's result on the concatenated payloads. -/
theorem allocate_pdu_gap_check_witness :
    streamGap.allocate_pdu bldW = none ∧
    streamOk.allocate_pdu bldW =
      bldW streamOk.first_fragment_.protocol
        ((streamOk.fragments_.map (fun f => f.payload)).flatten) :=
  ⟨(allocate_pdu_gap_check bldW streamGap).1 ⟨1, by decide, by decide⟩,
   (allocate_pdu_gap_check bldW streamOk).2 (by decide)⟩

lemma lookupKey_eraseKey (k : KeyType) (l : List (KeyType × IPv4Stream2)) :
    lookupKey k (eraseKey k l) = none := by
  induction l with
  | nil => rfl
  | cons e rest ih =>
    simp only [eraseKey]
    split_ifs with h
    · exact ih
    · simp only [lookupKey]
      rw [if_neg h]
      exact ih

lemma mem_sweepStreams (t : Int) (l : List (KeyType × IPv4Stream2))
    (e : KeyType × IPv4Stream2) :
    e ∈ sweepStreams t l ↔
      e ∈ l ∧ t - e.2.last_timestamp_ ≤ fragment_timeout := by
  induction l with
  | nil => simp [sweepStreams]
  | cons g rest ih =>
    simp only [sweepStreams]
    split_ifs with h
    · rw [ih]
      constructor
      · rintro ⟨hm, hle⟩
        exact ⟨List.mem_cons_of_mem g hm, hle⟩
      · rintro ⟨hm, hle⟩
        rcases List.mem_cons.mp hm with rfl | hm2
        · omega
        · exact ⟨hm2, hle⟩
    · simp only [List.mem_cons]
      rw [ih]
      constructor
      · rintro (rfl | ⟨hm, hle⟩)
        · exact ⟨Or.inl rfl, by omega⟩
        · exact ⟨Or.inr hm, hle⟩
      · rintro ⟨rfl | hm, hle⟩
        · exact Or.inl rfl
        · exact Or.inr ⟨hm, hle⟩

lemma mem_setEntry_ne (k : KeyType) (v : IPv4Stream2)
    (l : List (KeyType × IPv4Stream2)) (e : KeyType × IPv4Stream2)
    (hk : e.1 ≠ k) : e ∈ setEntry k v l ↔ e ∈ l := by
  induction l with
  | nil =>
    simp only [setEntry, List.mem_singleton, List.not_mem_nil, iff_false]
    intro he
    exact hk (by rw [he])
  | cons g rest ih =>
    simp only [setEntry]
    split_ifs with h
    · simp only [List.mem_cons]
      constructor
      · rintro (rfl | hm)
        · exact absurd rfl hk
        · exact Or.inr hm
      · rintro (rfl | hm)
        · exact absurd h hk
        · exact Or.inr hm
    · simp only [List.mem_cons, ih]

lemma mem_eraseKey_ne (k : KeyType) (l : List (KeyType × IPv4Stream2))
    (e : KeyType × IPv4Stream2) (hk : e.1 ≠ k) :
    e ∈ eraseKey k l ↔ e ∈ l := by
  induction l with
  | nil => simp [eraseKey]
  | cons g rest ih =>
    simp only [eraseKey]
    split_ifs with h
    · rw [ih]
      simp only [List.mem_cons]
      constructor
      · exact Or.inr
      · rintro (rfl | hm)
        · exact absurd h hk
        · exact hm
    · simp only [List.mem_cons, ih]

/-- The stream process absorbs the packet's fragment into: the looked-up
(or freshly constructed) store for the packet's key in the post-sweep
table, after the add_fragment call. -/
def absorbedStream (t : Int) (r : IPv4Reassembler2) (ip : IP) : IPv4Stream2 :=
  ((lookupKey (make_key ip) (tableAfterSweep t r.streams_)).getD
    IPv4Stream2.init).add_fragment t ip

lemma process_fragmented_eq (pdu_from_flag : Nat → List Nat → Option (List Nat))
    (r : IPv4Reassembler2) (t : Int) (pkt : PDUPacket) (ip : IP)
    (hip : pkt.ip = some ip) (hinner : ip.inner.isSome = true)
    (hfrag : ip.is_fragmented = true) :
    r.process pdu_from_flag t pkt =
      if (absorbedStream t r ip).is_complete then
        match (absorbedStream t r ip).allocate_pdu pdu_from_flag with
        | none =>
          (⟨eraseKey (make_key ip) (setEntry (make_key ip)
              (absorbedStream t r ip) (tableAfterSweep t r.streams_))⟩,
           { pkt with ip := some (absorbedStream t r ip).first_fragment_ },
           PacketStatus.FRAGMENTED)
        | some b =>
          (⟨eraseKey (make_key ip) (setEntry (make_key ip)
              (absorbedStream t r ip) (tableAfterSweep t r.streams_))⟩,
           { pkt with ip := some { (absorbedStream t r ip).first_fragment_ with
                                   inner := some b, fragment_offset := 0,
                                   flags := 0 } },
           PacketStatus.REASSEMBLED)
      else
        (⟨setEntry (make_key ip) (absorbedStream t r ip)
            (tableAfterSweep t r.streams_)⟩,
         pkt, PacketStatus.FRAGMENTED) := by
  have hni : ip.inner.isNone = false := by
    cases hi : ip.inner
    · rw [hi] at hinner
      cases hinner
    · rfl
  unfold IPv4Reassembler2.process absorbedStream
  simp only [hip, hni, hfrag, Bool.false_eq_true, if_false, if_true]

/-- C6: whenever the absorbed stream reports completeness, process removes
the table entry for the packet's key before returning — both when the
stitch fails (status FRAGMENTED) and when it succeeds (status REASSEMBLED). -/
theorem process_removes_completed_entry
    (pdu_from_flag : Nat → List Nat → Option (List Nat))
    (r : IPv4Reassembler2) (t : Int) (pkt : PDUPacket) (ip : IP)
    (hip : pkt.ip = some ip) (hinner : ip.inner.isSome = true)
    (hfrag : ip.is_fragmented = true)
    (hc : (absorbedStream t r ip).is_complete = true) :
    lookupKey (make_key ip) (r.process pdu_from_flag t pkt).1.streams_ = none ∧
    ((absorbedStream t r ip).allocate_pdu pdu_from_flag = none →
      (r.process pdu_from_flag t pkt).2.2 = PacketStatus.FRAGMENTED) ∧
    (∀ b, (absorbedStream t r ip).allocate_pdu pdu_from_flag = some b →
      (r.process pdu_from_flag t pkt).2.2 = PacketStatus.REASSEMBLED) := by
  rw [process_fragmented_eq pdu_from_flag r t pkt ip hip hinner hfrag, if_pos hc]
  cases halloc : (absorbedStream t r ip).allocate_pdu pdu_from_flag with
  | none =>
    exact ⟨lookupKey_eraseKey _ _, fun _ => rfl, fun b hb => Option.noConfusion hb⟩
  | some b0 =>
    exact ⟨lookupKey_eraseKey _ _, fun hb => Option.noConfusion hb,
           fun b hb => rfl⟩

lemma mem_process_table_ne (pdu_from_flag : Nat → List Nat → Option (List Nat))
    (r : IPv4Reassembler2) (t : Int) (pkt : PDUPacket) (ip : IP)
    (e : KeyType × IPv4Stream2)
    (hip : pkt.ip = some ip) (hinner : ip.inner.isSome = true)
    (hfrag : ip.is_fragmented = true) (hk : e.1 ≠ make_key ip) :
    e ∈ (r.process pdu_from_flag t pkt).1.streams_ ↔
      e ∈ tableAfterSweep t r.streams_ := by
  rw [process_fragmented_eq pdu_from_flag r t pkt ip hip hinner hfrag]
  split_ifs with hC
  · cases halloc : (absorbedStream t r ip).allocate_pdu pdu_from_flag with
    | none =>
      rw [show ((⟨eraseKey (make_key ip) (setEntry (make_key ip)
            (absorbedStream t r ip) (tableAfterSweep t r.streams_))⟩,
          { pkt with ip := some (absorbedStream t r ip).first_fragment_ },
          PacketStatus.FRAGMENTED) : IPv4Reassembler2 × PDUPacket × PacketStatus).1.streams_ =
          eraseKey (make_key ip) (setEntry (make_key ip)
            (absorbedStream t r ip) (tableAfterSweep t r.streams_)) from rfl]
      rw [mem_eraseKey_ne _ _ _ hk, mem_setEntry_ne _ _ _ _ hk]
    | some b =>
      rw [show ((⟨eraseKey (make_key ip) (setEntry (make_key ip)
            (absorbedStream t r ip) (tableAfterSweep t r.streams_))⟩,
          { pkt with ip := some { (absorbedStream t r ip).first_fragment_ with
                                  inner := some b, fragment_offset := 0,
                                  flags := 0 } },
          PacketStatus.REASSEMBLED) : IPv4Reassembler2 × PDUPacket × PacketStatus).1.streams_ =
          eraseKey (make_key ip) (setEntry (make_key ip)
            (absorbedStream t r ip) (tableAfterSweep t r.streams_)) from rfl]
      rw [mem_eraseKey_ne _ _ _ hk, mem_setEntry_ne _ _ _ _ hk]
  · exact mem_setEntry_ne _ _ _ _ hk

/-- C7: on a process call for a fragmented packet with more than 100 tracked
streams, the sweep removes exactly the entries whose last_timestamp_ age
exceeds the 2,000,000-microsecond timeout: stale entries are gone from the
swept table (and, for keys other than the processed one, from the final
table), and non-stale entries survive. -/
theorem process_sweeps_when_over_cap
    (pdu_from_flag : Nat → List Nat → Option (List Nat))
    (r : IPv4Reassembler2) (t : Int) (pkt : PDUPacket) (ip : IP)
    (e : KeyType × IPv4Stream2)
    (hip : pkt.ip = some ip) (hinner : ip.inner.isSome = true)
    (hfrag : ip.is_fragmented = true)
    (hsize : r.streams_.length > 100)
    (he : e ∈ r.streams_) :
    (t - e.2.last_timestamp_ > fragment_timeout →
      e ∉ tableAfterSweep t r.streams_) ∧
    (t - e.2.last_timestamp_ ≤ fragment_timeout →
      e ∈ tableAfterSweep t r.streams_) ∧
    (e.1 ≠ make_key ip → t - e.2.last_timestamp_ > fragment_timeout →
      e ∉ (r.process pdu_from_flag t pkt).1.streams_) ∧
    (e.1 ≠ make_key ip → t - e.2.last_timestamp_ ≤ fragment_timeout →
      e ∈ (r.process pdu_from_flag t pkt).1.streams_) := by
  have hsweep : tableAfterSweep t r.streams_ = sweepStreams t r.streams_ := by
    unfold tableAfterSweep
    rw [if_pos hsize]
  have h1 : t - e.2.last_timestamp_ > fragment_timeout →
      e ∉ tableAfterSweep t r.streams_ := by
    intro hage hmem
    rw [hsweep] at hmem
    have hx := (mem_sweepStreams t r.streams_ e).mp hmem
    omega
  have h2 : t - e.2.last_timestamp_ ≤ fragment_timeout →
      e ∈ tableAfterSweep t r.streams_ := by
    intro hage
    rw [hsweep]
    exact (mem_sweepStreams t r.streams_ e).mpr ⟨he, hage⟩
  refine ⟨h1, h2, ?_, ?_⟩
  · intro hk hage hmem
    exact h1 hage
      ((mem_process_table_ne pdu_from_flag r t pkt ip e hip hinner hfrag hk).mp hmem)
  · intro hk hage
    exact (mem_process_table_ne pdu_from_flag r t pkt ip e hip hinner hfrag hk).mpr
      (h2 hage)

/-- C10: when the absorbed stream is complete, process overwrites the
packet's IP layer with the stored first-fragment header snapshot before the
stitch result is examined: on stitch failure the packet keeps exactly that
snapshot (its original header values and inner payload are gone) and
FRAGMENTED is returned; on stitch success the same snapshot additionally
gets the stitched payload as inner PDU, fragment offset 0 and cleared
flags, and REASSEMBLED is returned. -/
theorem process_overwrites_header_on_completion
    (pdu_from_flag : Nat → List Nat → Option (List Nat))
    (r : IPv4Reassembler2) (t : Int) (pkt : PDUPacket) (ip : IP)
    (hip : pkt.ip = some ip) (hinner : ip.inner.isSome = true)
    (hfrag : ip.is_fragmented = true)
    (hc : (absorbedStream t r ip).is_complete = true) :
    ((absorbedStream t r ip).allocate_pdu pdu_from_flag = none →
      (r.process pdu_from_flag t pkt).2.1 =
        { pkt with ip := some (absorbedStream t r ip).first_fragment_ } ∧
      (r.process pdu_from_flag t pkt).2.2 = PacketStatus.FRAGMENTED) ∧
    (∀ b, (absorbedStream t r ip).allocate_pdu pdu_from_flag = some b →
      (r.process pdu_from_flag t pkt).2.1 =
        { pkt with ip := some { (absorbedStream t r ip).first_fragment_ with
                                inner := some b, fragment_offset := 0,
                                flags := 0 } } ∧
      (r.process pdu_from_flag t pkt).2.2 = PacketStatus.REASSEMBLED) := by
  rw [process_fragmented_eq pdu_from_flag r t pkt ip hip hinner hfrag, if_pos hc]
  cases halloc : (absorbedStream t r ip).allocate_pdu pdu_from_flag with
  | none =>
    exact ⟨fun _ => ⟨rfl, rfl⟩, fun b hb => Option.noConfusion hb⟩
  | some b0 =>
    refine ⟨fun hb => Option.noConfusion hb, fun b hb => ?_⟩
    cases hb
    exact ⟨rfl, rfl⟩

def keyD : KeyType := make_key pktD0

def streamPre : IPv4Stream2 :=
  IPv4Stream2.init.absorbAll [(0, pktD0), (1, pktD1)]

def rPre : IPv4Reassembler2 := ⟨[(keyD, streamPre)]⟩

def pktFinal : PDUPacket := ⟨[255], some pktD2⟩

def bldNone : Nat → List Nat → Option (List Nat) := fun _ _ => none

/-- Witness for C6: the terminal fragment completes a two-fragment store;
the table entry is removed and the status follows the stitch outcome. -/
theorem process_removes_completed_entry_witness :
    (pktFinal.ip = some pktD2 ∧ pktD2.inner.isSome = true ∧
     pktD2.is_fragmented = true ∧
     (absorbedStream 2 rPre pktD2).is_complete = true) ∧
    (lookupKey (make_key pktD2) (rPre.process bldW 2 pktFinal).1.streams_ = none ∧
     ((absorbedStream 2 rPre pktD2).allocate_pdu bldW = none →
       (rPre.process bldW 2 pktFinal).2.2 = PacketStatus.FRAGMENTED) ∧
     (∀ b, (absorbedStream 2 rPre pktD2).allocate_pdu bldW = some b →
       (rPre.process bldW 2 pktFinal).2.2 = PacketStatus.REASSEMBLED)) ∧
    lookupKey (make_key pktD2) (rPre.process bldNone 2 pktFinal).1.streams_ = none :=
  ⟨⟨rfl, by decide, by decide, by decide⟩,
   process_removes_completed_entry bldW rPre 2 pktFinal pktD2 rfl (by decide)
     (by decide) (by decide),
   (process_removes_completed_entry bldNone rPre 2 pktFinal pktD2 rfl (by decide)
     (by decide) (by decide)).1⟩

/-- Witness for C10: with a failing builder the packet is rewritten to the
bare header snapshot and FRAGMENTED returned; with a succeeding builder the
snapshot additionally carries the stitched payload, offset 0, cleared
flags, and REASSEMBLED is returned. -/
theorem process_overwrites_header_witness :
    (pktFinal.ip = some pktD2 ∧ pktD2.inner.isSome = true ∧
     pktD2.is_fragmented = true ∧
     (absorbedStream 2 rPre pktD2).is_complete = true) ∧
    ((rPre.process bldNone 2 pktFinal).2.1 =
       { pktFinal with ip := some (absorbedStream 2 rPre pktD2).first_fragment_ } ∧
     (rPre.process bldNone 2 pktFinal).2.2 = PacketStatus.FRAGMENTED) ∧
    ((rPre.process bldW 2 pktFinal).2.1 =
       { pktFinal with ip := some (
           { (absorbedStream 2 rPre pktD2).first_fragment_ with
             inner := some ((17 : Nat) ::
               ((absorbedStream 2 rPre pktD2).fragments_.map
                 (fun f => f.payload)).flatten),
             fragment_offset := 0, flags := 0 }) } ∧
     (rPre.process bldW 2 pktFinal).2.2 = PacketStatus.REASSEMBLED) :=
  ⟨⟨rfl, by decide, by decide, by decide⟩,
   (process_overwrites_header_on_completion bldNone rPre 2 pktFinal pktD2 rfl
     (by decide) (by decide) (by decide)).1 (by decide),
   (process_overwrites_header_on_completion bldW rPre 2 pktFinal pktD2 rfl
     (by decide) (by decide) (by decide)).2
     ((17 : Nat) :: ((absorbedStream 2 rPre pktD2).fragments_.map
       (fun f => f.payload)).flatten)
     (by decide)⟩

def freshStream : IPv4Stream2 :=
  { streamA with last_timestamp_ := 2500000 }

def bigTable : List (KeyType × IPv4Stream2) :=
  (List.range 101).map (fun i => ((i, (0, 0)), streamA)) ++
    [((200, (0, 0)), freshStream)]

def rBig : IPv4Reassembler2 := ⟨bigTable⟩

def pktFirst : PDUPacket := ⟨[255], some pktD0⟩

def entryOld : KeyType × IPv4Stream2 := ((0, (0, 0)), streamA)

def entryFresh : KeyType × IPv4Stream2 := ((200, (0, 0)), freshStream)

/-- Witness for C7: a 102-entry table is swept when a fragment is processed
at t = 3,000,000 µs; the entry last seen at t = 0 is removed from the swept
and final tables, the entry last seen at t = 2,500,000 µs survives both. -/
theorem process_sweeps_when_over_cap_witness :
    (pktFirst.ip = some pktD0 ∧ pktD0.inner.isSome = true ∧
     pktD0.is_fragmented = true ∧ rBig.streams_.length > 100 ∧
     entryOld ∈ rBig.streams_ ∧ entryFresh ∈ rBig.streams_) ∧
    entryOld ∉ tableAfterSweep 3000000 rBig.streams_ ∧
    entryOld ∉ (rBig.process bldW 3000000 pktFirst).1.streams_ ∧
    entryFresh ∈ tableAfterSweep 3000000 rBig.streams_ ∧
    entryFresh ∈ (rBig.process bldW 3000000 pktFirst).1.streams_ :=
  ⟨⟨rfl, by decide, by decide, by decide, by decide, by decide⟩,
   (process_sweeps_when_over_cap bldW rBig 3000000 pktFirst pktD0 entryOld rfl
     (by decide) (by decide) (by decide) (by decide)).1 (by decide),
   (process_sweeps_when_over_cap bldW rBig 3000000 pktFirst pktD0 entryOld rfl
     (by decide) (by decide) (by decide) (by decide)).2.2.1 (by decide) (by decide),
   (process_sweeps_when_over_cap bldW rBig 3000000 pktFirst pktD0 entryFresh rfl
     (by decide) (by decide) (by decide) (by decide)).2.1 (by decide),
   (process_sweeps_when_over_cap bldW rBig 3000000 pktFirst pktD0 entryFresh rfl
     (by decide) (by decide) (by decide) (by decide)).2.2.2 (by decide) (by decide)⟩

lemma absorbAll_state (l : List (Int × IP)) (s : IPv4Stream2)
    (h1 : (s.fragments_.map IPv4Fragment2.offset ++
            l.map (fun p => extract_offset p.2)).Nodup)
    (h2 : List.Pairwise fragLt s.fragments_)
    (h3 : ∀ p ∈ l.head?, s.fragments_ = [] ∨
            p.1 - s.last_timestamp_ ≤ fragment_timeout)
    (h4 : List.Chain' (fun a b => b - a ≤ fragment_timeout) (l.map Prod.fst)) :
    List.Perm (s.absorbAll l).fragments_
      (l.map (fun p => toFrag p.2) ++ s.fragments_) ∧
    List.Pairwise fragLt (s.absorbAll l).fragments_ ∧
    (s.absorbAll l).received_size_ =
      s.received_size_ + (l.map (fun p => p.2.payloadBytes.length)).sum ∧
    (s.absorbAll l).received_end_ =
      (s.received_end_ || l.any (fun p => isTerminal p.2)) ∧
    (s.absorbAll l).total_size_ =
      l.foldl (fun a p => if isTerminal p.2 then
        extract_offset p.2 + p.2.payloadBytes.length else a) s.total_size_ ∧
    (s.absorbAll l).first_fragment_ =
      l.foldl (fun a p => if extract_offset p.2 == 0 then
        p.2.withoutInner else a) s.first_fragment_ := by
  induction l generalizing s with
  | nil =>
    exact ⟨List.Perm.refl _, h2, rfl, by simp [IPv4Stream2.absorbAll], rfl, rfl⟩
  | cons p rest ih =>
    obtain ⟨t1, ip1⟩ := p
    have hnr : ¬(s.fragments_ ≠ [] ∧
        t1 - s.last_timestamp_ > fragment_timeout) := by
      rcases h3 (t1, ip1) (by simp) with hemp | hle
      · intro hx
        exact hx.1 hemp
      · rintro ⟨-, hgt⟩
        omega
    have hs1 := add_fragment_noReset s t1 ip1 hnr
    have hoff : (toFrag ip1).offset ∉ s.fragments_.map IPv4Fragment2.offset := by
      have hnd := List.nodup_append.mp (by simpa using h1)
      intro hmem
      exact hnd.2.2 hmem (by simp [toFrag])
    obtain ⟨hfresh, hperm⟩ := insertSorted_not_mem (toFrag ip1) s.fragments_ hoff
    have hfr1 : (s.add_fragment t1 ip1).fragments_ =
        (insertSorted (toFrag ip1) s.fragments_).1 := by rw [hs1]
    have hperm1 : List.Perm (s.add_fragment t1 ip1).fragments_
        (toFrag ip1 :: s.fragments_) := by
      rw [hfr1]
      exact hperm
    have hpair1 : List.Pairwise fragLt (s.add_fragment t1 ip1).fragments_ := by
      rw [hfr1]
      exact insertSorted_pairwise _ _ h2
    have hrs1 : (s.add_fragment t1 ip1).received_size_ =
        s.received_size_ + ip1.payloadBytes.length := by
      rw [hs1]
      simp [hfresh]
    have hend1 : (s.add_fragment t1 ip1).received_end_ =
        (s.received_end_ || isTerminal ip1) := by
      rw [hs1]
      cases hT : isTerminal ip1 <;> simp [hT]
    have htot1 : (s.add_fragment t1 ip1).total_size_ =
        (if isTerminal ip1 then extract_offset ip1 + ip1.payloadBytes.length
         else s.total_size_) := by rw [hs1]
    have hff1 : (s.add_fragment t1 ip1).first_fragment_ =
        (if extract_offset ip1 == 0 then ip1.withoutInner
         else s.first_fragment_) := by rw [hs1]
    have hlast1 : (s.add_fragment t1 ip1).last_timestamp_ = t1 := by rw [hs1]
    have hchain := List.chain'_cons'.mp
      (show List.Chain' (fun a b => b - a ≤ fragment_timeout)
        (t1 :: rest.map Prod.fst) from h4)
    have hih1 : ((s.add_fragment t1 ip1).fragments_.map IPv4Fragment2.offset ++
        rest.map (fun p => extract_offset p.2)).Nodup := by
      have hpermoff : List.Perm
          ((s.add_fragment t1 ip1).fragments_.map IPv4Fragment2.offset)
          (extract_offset ip1 :: s.fragments_.map IPv4Fragment2.offset) := by
        simpa [toFrag] using hperm1.map IPv4Fragment2.offset
      have hnd0 : (extract_offset ip1 ::
          (s.fragments_.map IPv4Fragment2.offset ++
            rest.map (fun p => extract_offset p.2))).Nodup :=
        (List.perm_middle.nodup_iff).mp (by simpa using h1)
      exact ((hpermoff.append_right _).nodup_iff).mpr hnd0
    have hih3 : ∀ q ∈ rest.head?, (s.add_fragment t1 ip1).fragments_ = [] ∨
        q.1 - (s.add_fragment t1 ip1).last_timestamp_ ≤ fragment_timeout := by
      intro q hq
      right
      rw [hlast1]
      rw [Option.mem_def] at hq
      have hy : q.1 ∈ (rest.map Prod.fst).head? := by
        rw [List.head?_map, hq]
        rfl
      exact hchain.1 q.1 hy
    obtain ⟨ja, jb, jc, jd, je, jf⟩ :=
      ih (s.add_fragment t1 ip1) hih1 hpair1 hih3 hchain.2
    have habsorb : s.absorbAll ((t1, ip1) :: rest) =
        (s.add_fragment t1 ip1).absorbAll rest := rfl
    refine ⟨?_, ?_, ?_, ?_, ?_, ?_⟩
    · rw [habsorb]
      refine ja.trans ?_
      refine (List.Perm.append_left _ hperm1).trans ?_
      exact List.perm_middle
    · rw [habsorb]
      exact jb
    · rw [habsorb, jc, hrs1]
      simp [Nat.add_assoc]
    · rw [habsorb, jd, hend1]
      simp [Bool.or_assoc]
    · rw [habsorb, je, htot1]
      rfl
    · rw [habsorb, jf, hff1]
      rfl

lemma foldl_if_of_filter_nil {α β : Type} (q : α → Bool) (v : α → β)
    (l : List α) (a : β) (h : l.filter q = []) :
    l.foldl (fun acc x => if q x then v x else acc) a = a := by
  induction l generalizing a with
  | nil => rfl
  | cons x rest ih =>
    rw [List.filter_cons] at h
    split_ifs at h with hq
    simp only [List.foldl_cons]
    rw [if_neg hq]
    exact ih a h

lemma foldl_if_of_filter_singleton {α β : Type} (q : α → Bool) (v : α → β)
    (l : List α) (a : β) (x : α) (h : l.filter q = [x]) :
    l.foldl (fun acc y => if q y then v y else acc) a = v x := by
  induction l generalizing a with
  | nil => exact absurd h (by simp)
  | cons y rest ih =>
    rw [List.filter_cons] at h
    split_ifs at h with hq
    · injection h with hxy hrest
      subst hxy
      simp only [List.foldl_cons]
      rw [if_pos hq]
      exact foldl_if_of_filter_nil q v rest (v y) hrest
    · simp only [List.foldl_cons]
      rw [if_neg hq]
      exact ih a h

lemma foldl_zip_snd {α β γ : Type} (g : γ → β → γ) (ts : List α)
    (l : List β) (a : γ) (h : ts.length = l.length) :
    (ts.zip l).foldl (fun acc p => g acc p.2) a = l.foldl g a := by
  induction l generalizing ts a with
  | nil =>
    cases ts with
    | nil => rfl
    | cons t ts2 => cases h
  | cons x rest ih =>
    cases ts with
    | nil => cases h
    | cons t ts2 =>
      simp only [List.zip_cons_cons, List.foldl_cons]
      exact ih ts2 (g a x) (by simpa using h)

lemma contiguousFrom_le (e : Nat) (ds : List IP)
    (h : contiguousFrom e ds = true) : ∀ ip ∈ ds, e ≤ extract_offset ip := by
  induction ds generalizing e with
  | nil =>
    intro ip hip
    cases hip
  | cons x rest ih =>
    simp only [contiguousFrom, Bool.and_eq_true, beq_iff_eq] at h
    obtain ⟨hx, hrest⟩ := h
    intro ip hip
    rcases List.mem_cons.mp hip with rfl | hm
    · omega
    · have := ih (e + x.payloadBytes.length) hrest ip hm
      omega

lemma contiguousFrom_pairwise (e : Nat) (ds : List IP)
    (h : contiguousFrom e ds = true)
    (hnd : (ds.map extract_offset).Nodup) :
    List.Pairwise (fun a b => extract_offset a < extract_offset b) ds := by
  induction ds generalizing e with
  | nil => exact List.Pairwise.nil
  | cons x rest ih =>
    simp only [contiguousFrom, Bool.and_eq_true, beq_iff_eq] at h
    obtain ⟨hx, hrest⟩ := h
    simp only [List.map_cons, List.nodup_cons] at hnd
    obtain ⟨hxmem, hndrest⟩ := hnd
    refine List.pairwise_cons.mpr ⟨?_, ih _ hrest hndrest⟩
    intro y hy
    have hle := contiguousFrom_le _ _ hrest y hy
    have hne : extract_offset x ≠ extract_offset y := by
      intro heq
      exact hxmem (by rw [heq]; exact List.mem_map_of_mem _ hy)
    omega

lemma contiguousFrom_terminal (ds : List IP) (e : Nat)
    (hc : contiguousFrom e ds = true) (ht : terminalOnlyLast ds = true) :
    ∃ tm, ds.filter isTerminal = [tm] ∧
      extract_offset tm + tm.payloadBytes.length =
        e + (ds.map (fun ip => ip.payloadBytes.length)).sum := by
  induction ds generalizing e with
  | nil => cases ht
  | cons x rest ih =>
    cases rest with
    | nil =>
      simp only [terminalOnlyLast] at ht
      simp only [contiguousFrom, Bool.and_eq_true, beq_iff_eq] at hc
      refine ⟨x, ?_, ?_⟩
      · rw [List.filter_cons, if_pos ht]
        rfl
      · rw [hc.1]
        simp
    | cons y rest2 =>
      simp only [terminalOnlyLast, Bool.and_eq_true, Bool.not_eq_true'] at ht
      rw [contiguousFrom, Bool.and_eq_true] at hc
      obtain ⟨hx0, hcrest⟩ := hc
      have hx : extract_offset x = e := by simpa using hx0
      obtain ⟨tm, hfil, hval⟩ := ih (e + x.payloadBytes.length) hcrest ht.2
      refine ⟨tm, ?_, ?_⟩
      · rw [List.filter_cons, if_neg (by simp [ht.1])]
        exact hfil
      · rw [hval]
        simp only [List.map_cons, List.sum_cons]
        omega

lemma contiguousFrom_zero_head (ds : List IP)
    (hc : contiguousFrom 0 ds = true)
    (hnd : (ds.map extract_offset).Nodup) (hne : ds ≠ []) :
    ∃ h0, ds.filter (fun ip => extract_offset ip == 0) = [h0] ∧
      ds.head? = some h0 := by
  cases ds with
  | nil => exact absurd rfl hne
  | cons x rest =>
    simp only [contiguousFrom, Bool.and_eq_true, beq_iff_eq] at hc
    obtain ⟨hx, hcrest⟩ := hc
    simp only [List.map_cons, List.nodup_cons] at hnd
    refine ⟨x, ?_, rfl⟩
    rw [List.filter_cons, if_pos (by simp [hx])]
    have hzero : rest.filter (fun ip => extract_offset ip == 0) = [] := by
      rw [List.filter_eq_nil_iff]
      intro ip hip
      simp only [beq_iff_eq]
      intro h0
      exact hnd.1 (by rw [hx, ← h0]; exact List.mem_map_of_mem _ hip)
    rw [hzero]

lemma any_zip_snd {α β : Type} (q : β → Bool) (ts : List α) (l : List β)
    (h : ts.length = l.length) :
    (ts.zip l).any (fun p => q p.2) = l.any q := by
  induction l generalizing ts with
  | nil =>
    cases ts with
    | nil => rfl
    | cons t ts2 => cases h
  | cons x rest ih =>
    cases ts with
    | nil => cases h
    | cons t ts2 =>
      simp only [List.zip_cons_cons, List.any_cons]
      rw [ih ts2 (by simpa using h)]

instance : IsAntisymm IPv4Fragment2 fragLt :=
  ⟨fun _ _ h1 h2 => absurd (Nat.lt_trans h1 h2) (Nat.lt_irrefl _)⟩

lemma absorb_perm_canonical (ds l : List IP) (ts : List Int)
    (hv : validDatagram ds) (hp : List.Perm l ds)
    (hlen : ts.length = l.length)
    (hch : List.Chain' (fun a b => b - a ≤ fragment_timeout) ts) :
    (IPv4Stream2.init.absorbAll (ts.zip l)).fragments_ = ds.map toFrag ∧
    (IPv4Stream2.init.absorbAll (ts.zip l)).received_size_ =
      (ds.map (fun ip => ip.payloadBytes.length)).sum ∧
    (IPv4Stream2.init.absorbAll (ts.zip l)).received_end_ = true ∧
    (IPv4Stream2.init.absorbAll (ts.zip l)).total_size_ =
      (ds.map (fun ip => ip.payloadBytes.length)).sum ∧
    (IPv4Stream2.init.absorbAll (ts.zip l)).first_fragment_ =
      ((ds.head?).map IP.withoutInner).getD IP.defaultHeader := by
  obtain ⟨hne, hinner, hnd, hcont, hterm⟩ := hv
  have hlen2 : l.length ≤ ts.length := Nat.le_of_eq hlen.symm
  have hsnd : (ts.zip l).map Prod.snd = l := List.map_snd_zip ts l hlen2
  have hfst : (ts.zip l).map Prod.fst = ts :=
    List.map_fst_zip ts l (Nat.le_of_eq hlen)
  have hmap1 : (ts.zip l).map (fun p => extract_offset p.2) =
      l.map extract_offset := by
    have h' := List.map_map extract_offset Prod.snd (ts.zip l)
    rw [hsnd] at h'
    exact h'.symm
  have hmap2 : (ts.zip l).map (fun p => toFrag p.2) = l.map toFrag := by
    have h' := List.map_map toFrag Prod.snd (ts.zip l)
    rw [hsnd] at h'
    exact h'.symm
  have hmap3 : (ts.zip l).map (fun p => p.2.payloadBytes.length) =
      l.map (fun ip => ip.payloadBytes.length) := by
    have h' := List.map_map (fun ip : IP => ip.payloadBytes.length)
      Prod.snd (ts.zip l)
    rw [hsnd] at h'
    exact h'.symm
  have hh1 : (IPv4Stream2.init.fragments_.map IPv4Fragment2.offset ++
      (ts.zip l).map (fun p => extract_offset p.2)).Nodup := by
    have hx : ((ts.zip l).map (fun p => extract_offset p.2)).Nodup := by
      rw [hmap1]
      exact (hp.map extract_offset).nodup_iff.mpr hnd
    simpa [IPv4Stream2.init] using hx
  have hh3 : ∀ p ∈ (ts.zip l).head?, IPv4Stream2.init.fragments_ = [] ∨
      p.1 - IPv4Stream2.init.last_timestamp_ ≤ fragment_timeout :=
    fun p _ => Or.inl rfl
  have hh4 : List.Chain' (fun a b => b - a ≤ fragment_timeout)
      ((ts.zip l).map Prod.fst) := by
    rw [hfst]
    exact hch
  obtain ⟨ka, kb, kc, kd, ke, kf⟩ :=
    absorbAll_state (ts.zip l) IPv4Stream2.init hh1 List.Pairwise.nil hh3 hh4
  obtain ⟨tm, htmfil, htmval⟩ := contiguousFrom_terminal ds 0 hcont hterm
  have htm_filter_mem : tm ∈ ds.filter isTerminal := by
    rw [htmfil]
    exact List.mem_singleton_self tm
  have htm_mem : tm ∈ ds := List.mem_of_mem_filter htm_filter_mem
  have htm_term : isTerminal tm = true := List.of_mem_filter htm_filter_mem
  obtain ⟨h0, h0fil, h0head⟩ := contiguousFrom_zero_head ds hcont hnd hne
  have hfl_tm : l.filter isTerminal = [tm] := by
    refine List.perm_singleton.mp ?_
    rw [← htmfil]
    exact hp.filter isTerminal
  have hfl_h0 : l.filter (fun ip => extract_offset ip == 0) = [h0] := by
    refine List.perm_singleton.mp ?_
    rw [← h0fil]
    exact hp.filter _
  have hdsorted : List.Pairwise fragLt (ds.map toFrag) := by
    have hpw := contiguousFrom_pairwise 0 ds hcont hnd
    exact List.pairwise_map.mpr (hpw.imp (fun h => h))
  have hfragsperm : List.Perm
      (IPv4Stream2.init.absorbAll (ts.zip l)).fragments_ (ds.map toFrag) := by
    refine ka.trans ?_
    rw [hmap2]
    simpa [IPv4Stream2.init] using hp.map toFrag
  refine ⟨List.eq_of_perm_of_sorted hfragsperm kb hdsorted, ?_, ?_, ?_, ?_⟩
  · rw [kc, hmap3]
    have hsum := (hp.map (fun ip => ip.payloadBytes.length)).sum_eq
    simp [IPv4Stream2.init, hsum]
  · rw [kd]
    have hany : (ts.zip l).any (fun p => isTerminal p.2) = l.any isTerminal :=
      any_zip_snd isTerminal ts l hlen
    rw [hany]
    have : l.any isTerminal = true :=
      List.any_eq_true.mpr ⟨tm, hp.mem_iff.mpr htm_mem, htm_term⟩
    rw [this]
    rfl
  · rw [ke]
    rw [show (ts.zip l).foldl (fun a p => if isTerminal p.2 then
          extract_offset p.2 + p.2.payloadBytes.length else a)
          IPv4Stream2.init.total_size_ =
        l.foldl (fun a ip => if isTerminal ip then
          extract_offset ip + ip.payloadBytes.length else a)
          IPv4Stream2.init.total_size_ from
      foldl_zip_snd (fun a ip => if isTerminal ip then
        extract_offset ip + ip.payloadBytes.length else a) ts l
        IPv4Stream2.init.total_size_ hlen]
    rw [foldl_if_of_filter_singleton isTerminal
      (fun ip => extract_offset ip + ip.payloadBytes.length) l _ tm hfl_tm]
    omega
  · rw [kf]
    rw [show (ts.zip l).foldl (fun a p => if extract_offset p.2 == 0 then
          p.2.withoutInner else a) IPv4Stream2.init.first_fragment_ =
        l.foldl (fun a ip => if extract_offset ip == 0 then
          ip.withoutInner else a) IPv4Stream2.init.first_fragment_ from
      foldl_zip_snd (fun a ip => if extract_offset ip == 0 then
        ip.withoutInner else a) ts l IPv4Stream2.init.first_fragment_ hlen]
    rw [foldl_if_of_filter_singleton (fun ip => extract_offset ip == 0)
      IP.withoutInner l _ h0 hfl_h0]
    rw [h0head]
    rfl

/-- C4: for any valid datagram (distinct offsets, contiguous coverage from
offset 0, terminal flag on exactly the last fragment, every fragment
carrying a payload), absorbing its fragments into a fresh store in any
permutation order, with any per-permutation timestamps whose consecutive
differences never exceed the timeout, yields a complete store; and any two
such absorption orders produce the same allocate_pdu (stitch) result. -/
theorem absorb_order_independent
    (pdu_from_flag : Nat → List Nat → Option (List Nat))
    (ds l1 l2 : List IP) (ts1 ts2 : List Int)
    (hv : validDatagram ds)
    (hp1 : List.Perm l1 ds) (hp2 : List.Perm l2 ds)
    (hlen1 : ts1.length = l1.length) (hlen2 : ts2.length = l2.length)
    (hch1 : List.Chain' (fun a b => b - a ≤ fragment_timeout) ts1)
    (hch2 : List.Chain' (fun a b => b - a ≤ fragment_timeout) ts2) :
    (IPv4Stream2.init.absorbAll (ts1.zip l1)).is_complete = true ∧
    (IPv4Stream2.init.absorbAll (ts2.zip l2)).is_complete = true ∧
    (IPv4Stream2.init.absorbAll (ts1.zip l1)).allocate_pdu pdu_from_flag =
      (IPv4Stream2.init.absorbAll (ts2.zip l2)).allocate_pdu pdu_from_flag := by
  obtain ⟨ha1, hb1, hc1, hd1, he1⟩ :=
    absorb_perm_canonical ds l1 ts1 hv hp1 hlen1 hch1
  obtain ⟨ha2, hb2, hc2, hd2, he2⟩ :=
    absorb_perm_canonical ds l2 ts2 hv hp2 hlen2 hch2
  have hcomp : ∀ s : IPv4Stream2, s.fragments_ = ds.map toFrag →
      s.received_size_ = (ds.map (fun ip => ip.payloadBytes.length)).sum →
      s.received_end_ = true →
      s.total_size_ = (ds.map (fun ip => ip.payloadBytes.length)).sum →
      s.is_complete = true := by
    intro s hf hrs hre ht
    unfold IPv4Stream2.is_complete
    rw [hre, hrs, ht, hf]
    obtain ⟨hne, hinner, hnd, hcont, hterm⟩ := hv
    cases ds with
    | nil => exact absurd rfl hne
    | cons x rest =>
      have hx0 : extract_offset x = 0 := by
        rw [contiguousFrom, Bool.and_eq_true] at hcont
        simpa using hcont.1
      simp [toFrag, hx0]
  refine ⟨hcomp _ ha1 hb1 hc1 hd1, hcomp _ ha2 hb2 hc2 hd2, ?_⟩
  unfold IPv4Stream2.allocate_pdu
  rw [ha1, ha2, he1, he2]

lemma chain3 (a b c : Int) (h1 : b - a ≤ fragment_timeout)
    (h2 : c - b ≤ fragment_timeout) :
    List.Chain' (fun x y => y - x ≤ fragment_timeout) [a, b, c] :=
  List.chain'_cons.mpr ⟨h1, List.chain'_cons.mpr ⟨h2, List.chain'_singleton _⟩⟩

/-- Witness for C4: the three-fragment datagram absorbed in reversed-head
order at spread-out timestamps versus in canonical order at equal
timestamps: both stores are complete and stitch identically. -/
theorem absorb_order_independent_witness :
    (validDatagram [pktD0, pktD1, pktD2] ∧
     List.Perm [pktD2, pktD0, pktD1] [pktD0, pktD1, pktD2] ∧
     List.Perm [pktD0, pktD1, pktD2] [pktD0, pktD1, pktD2] ∧
     ([(0 : Int), 1000000, 2000000] : List Int).length =
       ([pktD2, pktD0, pktD1] : List IP).length ∧
     ([(5 : Int), 5, 5] : List Int).length =
       ([pktD0, pktD1, pktD2] : List IP).length ∧
     List.Chain' (fun a b => b - a ≤ fragment_timeout)
       [(0 : Int), 1000000, 2000000] ∧
     List.Chain' (fun a b => b - a ≤ fragment_timeout) [(5 : Int), 5, 5]) ∧
    ((IPv4Stream2.init.absorbAll
        (([(0 : Int), 1000000, 2000000]).zip [pktD2, pktD0, pktD1])).is_complete
        = true ∧
     (IPv4Stream2.init.absorbAll
        (([(5 : Int), 5, 5]).zip [pktD0, pktD1, pktD2])).is_complete = true ∧
     (IPv4Stream2.init.absorbAll
        (([(0 : Int), 1000000, 2000000]).zip
          [pktD2, pktD0, pktD1])).allocate_pdu bldW =
       (IPv4Stream2.init.absorbAll
        (([(5 : Int), 5, 5]).zip [pktD0, pktD1, pktD2])).allocate_pdu bldW) :=
  ⟨⟨by decide, by decide, by decide, by decide, by decide,
    chain3 0 1000000 2000000 (by decide) (by decide),
    chain3 5 5 5 (by decide) (by decide)⟩,
   absorb_order_independent bldW [pktD0, pktD1, pktD2] [pktD2, pktD0, pktD1]
     [pktD0, pktD1, pktD2] [(0 : Int), 1000000, 2000000] [(5 : Int), 5, 5]
     (by decide) (by decide) (by decide) (by decide) (by decide)
     (chain3 0 1000000 2000000 (by decide) (by decide))
     (chain3 5 5 5 (by decide) (by decide))⟩
